import Mathlib

/-!
Verification of the itinerary-parsing, chat-session and budget-prediction
core of the travel-planner server (src/app.py and src/app_old.py).

Strings are modelled as `List Char` (Python `str`).  Python's
`str.replace`, `str.split` and `str.join` are embedded as executable
Lean functions with the same observable behaviour on character lists.
-/

set_option maxRecDepth 4000

namespace Capstone

/-- Embeds Python `response.replace('\n', '')`: removes every newline
character from the string (src/app.py line 192). -/
def removeNewlines (s : List Char) : List Char := s.filter (fun c => c != '\n')

/-- Embeds Python `s.split('Day')` for the three-character literal
delimiter: scans left to right, cutting the string at every
(non-overlapping) occurrence of `D`,`a`,`y` and keeping the pieces,
including empty ones (src/app.py line 192). -/
def splitOnDay : List Char → List (List Char)
  | 'D' :: 'a' :: 'y' :: rest => [] :: splitOnDay rest
  | c :: cs => (splitOnDay cs).modifyHead (fun t => c :: t)
  | [] => [[]]

/-- Embeds Python `item.split('.')`: cuts the string at every dot
character, keeping the pieces, including empty ones (src/app.py
line 193). -/
def splitOnDot : List Char → List (List Char)
  | [] => [[]]
  | c :: cs =>
      if c = '.' then [] :: splitOnDot cs
      else (splitOnDot cs).modifyHead (fun t => c :: t)

/-- Embeds Python `'.'.join(fragments)`: concatenates the fragments with
a single dot between consecutive fragments (src/app.py line 193). -/
def joinDot : List (List Char) → List Char
  | [] => []
  | [x] => x
  | x :: y :: rest => x ++ '.' :: joinDot (y :: rest)

/-- Embeds the comprehension body of src/app.py line 193:
`[item.split('.')[0], '.'.join(item.split('.')[1:])]`.  The index `[0]`
is total because Python split never returns an empty list
(`splitOnDot_ne_nil` below), so `headD` with default `[]` is faithful. -/
def procItem (item : List Char) : List Char × List Char :=
  ((splitOnDot item).headD [], joinDot ((splitOnDot item).drop 1))

/-- Embeds `process_response` of src/app.py lines 181-194:
`response.replace('\n', '').split('Day')[1:]` followed by the per-item
comprehension mapping each item to the pair
`[item.split('.')[0], '.'.join(item.split('.')[1:])]`. -/
def process_response (response : List Char) : List (List Char × List Char) :=
  ((splitOnDay (removeNewlines response)).drop 1).map procItem

/-- Embeds `process_response` of src/app_old.py lines 146-159, whose body
is character-for-character the same as the one in src/app.py. -/
def process_response_old (response : List Char) : List (List Char × List Char) :=
  ((splitOnDay (removeNewlines response)).drop 1).map procItem

/-- The day segments the comprehension of line 193 ranges over:
`response.replace('\n', '').split('Day')[1:]`. -/
def daySegments (response : List Char) : List (List Char) :=
  (splitOnDay (removeNewlines response)).drop 1

/-- Reference algorithm from the spec, section 4.3 steps 1-4 (and the C1
sources): remove every newline, split on the literal token `Day`
discarding the first split segment, and map each remaining segment to
the pair (text before its first dot, text after its first dot).  The
second component renders the spec words "the remaining fragments
rejoined with a dot": rejoining every fragment after the first
reconstitutes exactly the text following the first dot, and is empty
when the segment has no dot. -/
def specItineraryParse (s : List Char) : List (List Char × List Char) :=
  ((splitOnDay (removeNewlines s)).drop 1).map
    (fun seg => (seg.takeWhile (fun c => c != '.'),
                 (seg.dropWhile (fun c => c != '.')).drop 1))

/-- Decides whether the string contains an occurrence of the literal
delimiter `Day`. -/
def containsDay : List Char → Bool
  | 'D' :: 'a' :: 'y' :: _ => true
  | _ :: cs => containsDay cs
  | [] => false

theorem splitOnDot_dot (cs : List Char) :
    splitOnDot ('.' :: cs) = [] :: splitOnDot cs := by
  simp [splitOnDot]

theorem splitOnDot_cons (c : Char) (cs : List Char) (hc : ¬c = '.') :
    splitOnDot (c :: cs) = (splitOnDot cs).modifyHead (fun t => c :: t) := by
  simp [splitOnDot, hc]

theorem splitOnDot_ne_nil (s : List Char) : splitOnDot s ≠ [] := by
  induction s with
  | nil => simp [splitOnDot]
  | cons c cs ih =>
      by_cases hc : c = '.'
      · subst hc; simp [splitOnDot_dot]
      · rw [splitOnDot_cons c cs hc]
        simpa using ih

theorem splitOnDay_ne_nil (s : List Char) : splitOnDay s ≠ [] := by
  induction s using splitOnDay.induct with
  | case1 rest ih => simp [splitOnDay]
  | case2 c cs h ih => simp [splitOnDay]; exact ih
  | case3 => simp [splitOnDay]

theorem joinDot_modifyHead (c : Char) (l : List (List Char)) (h : l ≠ []) :
    joinDot (l.modifyHead (fun t => c :: t)) = c :: joinDot l := by
  match l with
  | [x] => rfl
  | x :: y :: rest => rfl

theorem joinDot_splitOnDot (s : List Char) : joinDot (splitOnDot s) = s := by
  induction s with
  | nil => rfl
  | cons c cs ih =>
      by_cases hc : c = '.'
      · subst hc
        obtain ⟨h, t, hht⟩ := List.exists_cons_of_ne_nil (splitOnDot_ne_nil cs)
        rw [splitOnDot_dot]
        rw [hht] at ih ⊢
        show ([] : List Char) ++ '.' :: joinDot (h :: t) = '.' :: cs
        rw [ih]
        rfl
      · rw [splitOnDot_cons c cs hc]
        rw [joinDot_modifyHead c _ (splitOnDot_ne_nil cs), ih]

theorem headD_splitOnDot (s : List Char) :
    (splitOnDot s).headD [] = s.takeWhile (fun c => c != '.') := by
  induction s with
  | nil => rfl
  | cons c cs ih =>
      by_cases hc : c = '.'
      · subst hc
        rw [splitOnDot_dot]
        simp [List.takeWhile_cons]
      · obtain ⟨h, t, hht⟩ := List.exists_cons_of_ne_nil (splitOnDot_ne_nil cs)
        rw [splitOnDot_cons c cs hc, hht, List.modifyHead_cons, List.headD_cons]
        rw [hht] at ih
        simp only [List.headD_cons] at ih
        simp [List.takeWhile_cons, hc, ih]

theorem drop_one_modifyHead (f : List Char → List Char) (l : List (List Char)) :
    (l.modifyHead f).drop 1 = l.drop 1 := by
  cases l with
  | nil => rfl
  | cons x t => rfl

theorem joinDot_drop_splitOnDot (s : List Char) :
    joinDot ((splitOnDot s).drop 1) = (s.dropWhile (fun c => c != '.')).drop 1 := by
  induction s with
  | nil => rfl
  | cons c cs ih =>
      by_cases hc : c = '.'
      · subst hc
        rw [splitOnDot_dot, List.drop_succ_cons, List.drop_zero, joinDot_splitOnDot]
        simp [List.dropWhile_cons]
      · rw [splitOnDot_cons c cs hc, drop_one_modifyHead, ih]
        simp [List.dropWhile_cons, hc]

theorem procItem_eq (item : List Char) :
    procItem item = (item.takeWhile (fun c => c != '.'),
                     (item.dropWhile (fun c => c != '.')).drop 1) := by
  rw [procItem, headD_splitOnDot, joinDot_drop_splitOnDot]

theorem containsDay_false_cons {c : Char} {cs : List Char}
    (h : containsDay (c :: cs) = false) :
    containsDay cs = false ∧ ∀ r, c = 'D' → cs = 'a' :: 'y' :: r → False := by
  have hx : ∀ r, c = 'D' → cs = 'a' :: 'y' :: r → False := by
    intro r hc hcs
    subst hc; subst hcs
    simp [containsDay] at h
  exact ⟨by rw [containsDay.eq_2 c cs hx] at h; exact h, hx⟩

theorem noDay_splitOnDay (s : List Char) (h : containsDay s = false) :
    splitOnDay s = [s] := by
  induction s using splitOnDay.induct with
  | case1 rest ih => simp [containsDay] at h
  | case2 c cs hx ih =>
      rw [splitOnDay.eq_2 c cs hx, ih (containsDay_false_cons h).1]
      rfl
  | case3 => rfl

theorem boundary_splitOnDay (pre rest : List Char) (h : containsDay pre = false) :
    splitOnDay (pre ++ 'D' :: 'a' :: 'y' :: rest) = pre :: splitOnDay rest := by
  induction pre with
  | nil => rfl
  | cons c cs ih =>
      obtain ⟨hcs, hx⟩ := containsDay_false_cons h
      have hexc : ∀ r, c = 'D' → cs ++ 'D' :: 'a' :: 'y' :: rest = 'a' :: 'y' :: r → False := by
        intro r hc hcat
        match cs, hcat with
        | [], hcat => simp at hcat
        | [x], hcat => simp at hcat
        | x :: y :: cs2, hcat =>
            rw [List.cons_append, List.cons_append] at hcat
            injection hcat with h1 h2
            injection h2 with h2 h3
            exact hx cs2 hc (by rw [h1, h2])
      rw [List.cons_append, splitOnDay.eq_2 c _ hexc, ih hcs]
      rfl

theorem splitOnDay_join (bodies : List (List Char)) :
    ∀ pre : List Char, containsDay pre = false →
    (∀ b ∈ bodies, containsDay b = false) →
    splitOnDay (pre ++ (bodies.map (fun b => 'D' :: 'a' :: 'y' :: b)).flatten) =
      pre :: bodies := by
  induction bodies with
  | nil =>
      intro pre hpre _
      simpa using noDay_splitOnDay pre hpre
  | cons b bs ih =>
      intro pre hpre hb
      have heq : pre ++ (List.map (fun b => 'D' :: 'a' :: 'y' :: b) (b :: bs)).flatten =
          pre ++ 'D' :: 'a' :: 'y' ::
            (b ++ (List.map (fun b => 'D' :: 'a' :: 'y' :: b) bs).flatten) := by
        simp
      rw [heq, boundary_splitOnDay pre _ hpre,
        ih b (hb b (by simp)) (fun x hx => hb x (by simp [hx]))]

theorem splitOnDay_headD_append (s : List Char) :
    ∃ t, (splitOnDay s).headD [] ++ t = s := by
  induction s using splitOnDay.induct with
  | case1 rest ih => exact ⟨'D' :: 'a' :: 'y' :: rest, rfl⟩
  | case2 c cs hx ih =>
      obtain ⟨h, ts, hht⟩ := List.exists_cons_of_ne_nil (splitOnDay_ne_nil cs)
      obtain ⟨t, ht⟩ := ih
      rw [hht] at ht
      refine ⟨t, ?_⟩
      rw [splitOnDay.eq_2 c cs hx, hht, List.modifyHead_cons, List.headD_cons]
      simp only [List.headD_cons] at ht
      rw [List.cons_append, ht]
  | case3 => exact ⟨[], rfl⟩

theorem splitOnDay_pieces_noDay (s : List Char) :
    ∀ p ∈ splitOnDay s, containsDay p = false := by
  induction s using splitOnDay.induct with
  | case1 rest ih =>
      intro p hp
      rw [splitOnDay.eq_1] at hp
      rcases List.mem_cons.mp hp with h | h
      · subst h; rfl
      · exact ih p h
  | case2 c cs hx ih =>
      intro p hp
      obtain ⟨h, ts, hht⟩ := List.exists_cons_of_ne_nil (splitOnDay_ne_nil cs)
      rw [splitOnDay.eq_2 c cs hx, hht, List.modifyHead_cons] at hp
      rcases List.mem_cons.mp hp with hh | hh
      · subst hh
        have hhead : containsDay h = false := ih h (by rw [hht]; exact List.mem_cons_self h ts)
        have hexc : ∀ r, c = 'D' → h = 'a' :: 'y' :: r → False := by
          intro r hc hhr
          obtain ⟨t, ht⟩ := splitOnDay_headD_append cs
          rw [hht, List.headD_cons, hhr] at ht
          exact hx (r ++ t) hc (by rw [← ht]; rfl)
        rw [containsDay.eq_2 c h hexc]
        exact hhead
      · exact ih p (by rw [hht]; exact List.mem_cons_of_mem h hh)
  | case3 =>
      intro p hp
      rcases List.mem_singleton.mp hp with h
      subst h; rfl

theorem splitOnDay_pieces_subset (s : List Char) :
    ∀ p ∈ splitOnDay s, ∀ c ∈ p, c ∈ s := by
  induction s using splitOnDay.induct with
  | case1 rest ih =>
      intro p hp x hx
      rw [splitOnDay.eq_1] at hp
      rcases List.mem_cons.mp hp with h | h
      · subst h; simp at hx
      · exact List.mem_cons_of_mem _ (List.mem_cons_of_mem _ (List.mem_cons_of_mem _ (ih p h x hx)))
  | case2 c cs hxc ih =>
      intro p hp x hx
      obtain ⟨h, ts, hht⟩ := List.exists_cons_of_ne_nil (splitOnDay_ne_nil cs)
      rw [splitOnDay.eq_2 c cs hxc, hht, List.modifyHead_cons] at hp
      rcases List.mem_cons.mp hp with hh | hh
      · subst hh
        rcases List.mem_cons.mp hx with hxc2 | hxc2
        · subst hxc2; exact List.mem_cons_self x cs
        · refine List.mem_cons_of_mem c ?_
          exact ih h (by rw [hht]; exact List.mem_cons_self h ts) x hxc2
      · refine List.mem_cons_of_mem c ?_
        exact ih p (by rw [hht]; exact List.mem_cons_of_mem h hh) x hx
  | case3 =>
      intro p hp x hx
      rcases List.mem_singleton.mp hp with h
      subst h; simp at hx

theorem containsDay_append_left (a t : List Char)
    (h : containsDay (a ++ t) = false) : containsDay a = false := by
  induction a with
  | nil => rfl
  | cons c a2 ih =>
      rw [List.cons_append] at h
      obtain ⟨h2, hx⟩ := containsDay_false_cons h
      have hx2 : ∀ r, c = 'D' → a2 = 'a' :: 'y' :: r → False := by
        intro r hc hr
        exact hx (r ++ t) hc (by rw [hr]; rfl)
      rw [containsDay.eq_2 c a2 hx2]
      exact ih h2

theorem containsDay_append_right (a t : List Char)
    (h : containsDay (a ++ t) = false) : containsDay t = false := by
  induction a with
  | nil => exact h
  | cons c a2 ih =>
      rw [List.cons_append] at h
      exact ih (containsDay_false_cons h).1

theorem containsDay_append_dot (a b : List Char)
    (ha : containsDay a = false) (hb : containsDay b = false) :
    containsDay (a ++ '.' :: b) = false := by
  induction a with
  | nil =>
      have hx : ∀ r, '.' = 'D' → b = 'a' :: 'y' :: r → False := by
        intro r hc _
        exact absurd hc (by decide)
      rw [List.nil_append, containsDay.eq_2 _ _ hx]
      exact hb
  | cons c a2 ih =>
      obtain ⟨ha2, hx⟩ := containsDay_false_cons ha
      have hx2 : ∀ r, c = 'D' → a2 ++ '.' :: b = 'a' :: 'y' :: r → False := by
        intro r hc hcat
        match a2, hcat with
        | [], hcat => simp at hcat
        | [x], hcat => simp at hcat
        | x :: y :: a3, hcat =>
            rw [List.cons_append, List.cons_append] at hcat
            injection hcat with h1 h2
            injection h2 with h2 h3
            exact hx a3 hc (by rw [h1, h2])
      rw [List.cons_append, containsDay.eq_2 c _ hx2]
      exact ih ha2

theorem removeNewlines_no_newline (s : List Char) : '\n' ∉ removeNewlines s := by
  intro h
  rw [removeNewlines, List.mem_filter] at h
  simp at h

theorem removeNewlines_noop (s : List Char) (h : '\n' ∉ s) :
    removeNewlines s = s := by
  rw [removeNewlines, List.filter_eq_self]
  intro a ha
  simp only [bne_iff_ne, ne_eq]
  intro he
  exact h (he ▸ ha)

theorem removeNewlines_idem (s : List Char) :
    removeNewlines (removeNewlines s) = removeNewlines s :=
  removeNewlines_noop _ (removeNewlines_no_newline s)

/-- C1: for every raw completion string, `process_response` coincides with
the reference algorithm of the spec: remove all newlines, split on the
literal token `Day` discarding the first split segment, then map each
segment to (text before its first dot, remaining fragments rejoined with
a dot, i.e. the text after its first dot). -/
theorem process_response_eq_reference (s : List Char) :
    process_response s = specItineraryParse s := by
  unfold process_response specItineraryParse
  refine List.map_congr_left ?_
  intro seg _
  exact procItem_eq seg

/-- C9: the parser duplicated across src/app.py and src/app_old.py is
extensionally equal: both `process_response` implementations agree on
every input string. -/
theorem process_response_old_agrees (s : List Char) :
    process_response s = process_response_old s := rfl

/-- C4: when the normalized text contains no occurrence of the literal
token `Day`, `process_response` returns the empty list. -/
theorem process_response_no_day (s : List Char)
    (h : containsDay (removeNewlines s) = false) :
    process_response s = [] := by
  unfold process_response
  rw [noDay_splitOnDay _ h]
  rfl

/-- Witness for C4 at the concrete input string `hello world`. -/
theorem process_response_no_day_witness :
    containsDay (removeNewlines ("hello world".data)) = false ∧
      process_response ("hello world".data) = [] :=
  ⟨by decide, process_response_no_day ("hello world".data) (by decide)⟩

theorem mem_takeWhile_mem (p : Char → Bool) (l : List Char) (x : Char)
    (h : x ∈ l.takeWhile p) : x ∈ l := by
  induction l with
  | nil => simp [List.takeWhile_nil] at h
  | cons c cs ih =>
      rw [List.takeWhile_cons] at h
      by_cases hp : p c
      · rw [if_pos hp] at h
        rcases List.mem_cons.mp h with h | h
        · subst h; exact List.mem_cons_self x cs
        · exact List.mem_cons_of_mem c (ih h)
      · rw [if_neg hp] at h
        simp at h

theorem mem_dropWhile_mem (p : Char → Bool) (l : List Char) (x : Char)
    (h : x ∈ l.dropWhile p) : x ∈ l := by
  induction l with
  | nil => simp [List.dropWhile_nil] at h
  | cons c cs ih =>
      rw [List.dropWhile_cons] at h
      by_cases hp : p c
      · rw [if_pos hp] at h
        exact List.mem_cons_of_mem c (ih h)
      · rw [if_neg hp] at h
        exact h

theorem procItem_no_dot (item : List Char) (h : '.' ∉ item) :
    procItem item = (item, []) := by
  rw [procItem_eq]
  have hall : ∀ x ∈ item, (fun c => c != '.') x = true := by
    intro x hx
    simp only [bne_iff_ne, ne_eq]
    intro he
    exact h (he ▸ hx)
  rw [List.takeWhile_eq_self_iff.mpr hall, List.dropWhile_eq_nil_iff.mpr hall]
  rfl

/-- C5: `process_response` is a total function: on every input it returns
the (possibly empty) ordered list of pairs obtained by mapping the pure
item transformer over the day segments, one pair per segment; and on a
day segment containing no dot character, the transformer yields the
whole segment as day label together with an empty description.
Totality, absence of exceptions and non-mutation of the input hold by
construction of the embedding: `process_response` is a pure function on
immutable character lists. -/
theorem process_response_total_function (s : List Char) :
    process_response s = (daySegments s).map procItem ∧
    (process_response s).length = (daySegments s).length ∧
    ∀ item : List Char, '.' ∉ item → procItem item = (item, []) :=
  ⟨rfl, List.length_map _ _, fun item h => procItem_no_dot item h⟩

/-- Witness for C5 at the concrete input `Day ab` whose single day
segment ` ab` contains no dot. -/
theorem process_response_total_function_witness :
    process_response ("Day ab".data) = (daySegments ("Day ab".data)).map procItem ∧
    (process_response ("Day ab".data)).length = (daySegments ("Day ab".data)).length ∧
    procItem (" ab".data) = (" ab".data, []) :=
  ⟨(process_response_total_function ("Day ab".data)).1,
   (process_response_total_function ("Day ab".data)).2.1,
   (process_response_total_function ("Day ab".data)).2.2 (" ab".data) (by decide)⟩

/-- C10: every entry produced by `process_response` has a day label free
of dot characters, and neither its day label nor its description
contains a newline character. -/
theorem process_response_entry_invariant (s : List Char) (e : List Char × List Char)
    (he : e ∈ process_response s) :
    '.' ∉ e.1 ∧ '\n' ∉ e.1 ∧ '\n' ∉ e.2 := by
  obtain ⟨seg, hseg, rfl⟩ := List.mem_map.mp he
  have hsegmem : seg ∈ splitOnDay (removeNewlines s) :=
    List.mem_of_mem_drop hseg
  have hsub : ∀ c ∈ seg, c ∈ removeNewlines s :=
    splitOnDay_pieces_subset (removeNewlines s) seg hsegmem
  rw [procItem_eq]
  refine ⟨?_, ?_, ?_⟩
  · intro hdot
    have := List.mem_takeWhile_imp hdot
    simp at this
  · intro hnl
    exact removeNewlines_no_newline s (hsub '\n' (mem_takeWhile_mem _ seg '\n' hnl))
  · intro hnl
    have h1 : '\n' ∈ seg.dropWhile (fun c => c != '.') :=
      List.mem_of_mem_drop hnl
    exact removeNewlines_no_newline s (hsub '\n' (mem_dropWhile_mem _ seg '\n' h1))

/-- Witness for C10 at a concrete input and entry of its output. -/
theorem process_response_entry_invariant_witness :
    '.' ∉ (" 1: a".data : List Char) ∧ '\n' ∉ (" 1: a".data : List Char) ∧
      '\n' ∉ (" b".data : List Char) :=
  process_response_entry_invariant ("Day 1: a. b".data) ((" 1: a".data, " b".data))
    (by decide)

/-- The concrete spec example input from section 8 of the spec. -/
def exampleInput : List Char :=
  "Day 4: Roatán Island. Take a ferry...coral reefs.".data

/-- C3 counterexample: on the spec example input, the produced entry is
not the claimed pair: the day label the code produces keeps the space
that followed the word `Day`, so it is not the claimed `4: Roatán
Island`. -/
theorem example_entry_ne_claimed :
    process_response exampleInput ≠
      [("4: Roatán Island".data, " Take a ferry...coral reefs.".data)] := by
  decide

/-- C3 amended: on the spec example input, `process_response` returns a
single entry whose day label is ` 4: Roatán Island` (with the leading
space that followed the delimiter) and whose description is
` Take a ferry...coral reefs.`. -/
theorem example_entry_eq_actual :
    process_response exampleInput =
      [(" 4: Roatán Island".data, " Take a ferry...coral reefs.".data)] := by
  decide

/-- Well-formed day block body as described by the C2 claim: the text
following one occurrence of the delimiter has the shape
`<number>: <text>.<narrative>` (with the space the generator places
after the word `Day`), the number is a non-empty digit string, and the
block contains no further occurrence of the delimiter. -/
def isDayBody (b : List Char) : Prop :=
  ∃ num t narr : List Char,
    b = ' ' :: (num ++ ':' :: ' ' :: (t ++ '.' :: narr)) ∧
    num ≠ [] ∧ (∀ c ∈ num, c.isDigit) ∧ containsDay b = false

/-- Raw completion text containing exactly `n` occurrences of the literal
delimiter `Day`, each followed by a well-formed day block body: the
formalization of the hypothesis of claim C2 on the raw (pre-normalization)
string. -/
def dayStructured (s : List Char) (n : ℕ) : Prop :=
  ∃ (pre : List Char) (bodies : List (List Char)),
    s = pre ++ (bodies.map (fun b => 'D' :: 'a' :: 'y' :: b)).flatten ∧
    containsDay pre = false ∧ bodies.length = n ∧ ∀ b ∈ bodies, isDayBody b

/-- Raw input whose single day block hides a second delimiter occurrence
behind a newline: newline removal glues `Da` and `y` into `Day`. -/
def c2Input : List Char := "Day 1: a. Da\ny".data

/-- C2 counterexample: `c2Input` contains exactly one occurrence of the
literal delimiter `Day`, followed by a well-formed block whose narrative
contains no further `Day`, yet `process_response` returns two entries,
because removing the newline manufactures a second delimiter occurrence. -/
theorem wellformed_count_counterexample :
    dayStructured c2Input 1 ∧ (process_response c2Input).length ≠ 1 := by
  constructor
  · refine ⟨[], [" 1: a. Da\ny".data], by decide, rfl, rfl, ?_⟩
    intro b hb
    rw [List.mem_singleton] at hb
    subst hb
    exact ⟨"1".data, "a".data, " Da\ny".data, by decide, by decide, by decide, by decide⟩
  · decide

theorem process_response_structured (pre : List Char) (bodies : List (List Char))
    (hpre : containsDay pre = false)
    (hb : ∀ b ∈ bodies, containsDay b = false)
    (hnl : '\n' ∉ pre ++ (bodies.map (fun b => 'D' :: 'a' :: 'y' :: b)).flatten) :
    process_response (pre ++ (bodies.map (fun b => 'D' :: 'a' :: 'y' :: b)).flatten) =
      bodies.map procItem := by
  unfold process_response
  rw [removeNewlines_noop _ hnl, splitOnDay_join bodies pre hpre hb]
  rfl

/-- C2 amended: the count property holds once the raw completion is
restricted to newline-free text (so that normalization cannot
manufacture or destroy delimiter occurrences): for newline-free text
containing exactly `n` occurrences of `Day`, each followed by a
well-formed `<number>: <text>.<narrative>` block with no further `Day`
inside, `process_response` returns exactly `n` entries, one per block in
block order, each with a non-empty day label. -/
theorem process_response_wellformed (s : List Char) (n : ℕ)
    (hs : dayStructured s n) (hnl : '\n' ∉ s) :
    (process_response s).length = n ∧
    (∃ bodies : List (List Char), bodies.length = n ∧
       (∀ b ∈ bodies, isDayBody b) ∧
       process_response s = bodies.map procItem) ∧
    ∀ e ∈ process_response s, e.1 ≠ [] := by
  obtain ⟨pre, bodies, hseq, hpre, hlen, hbody⟩ := hs
  subst hseq
  have hcd : ∀ b ∈ bodies, containsDay b = false := by
    intro b hb
    obtain ⟨num, t, narr, _, _, _, hc⟩ := hbody b hb
    exact hc
  have hmain := process_response_structured pre bodies hpre hcd hnl
  refine ⟨by rw [hmain, List.length_map, hlen], ⟨bodies, hlen, hbody, hmain⟩, ?_⟩
  intro e he
  rw [hmain] at he
  obtain ⟨b, hb, rfl⟩ := List.mem_map.mp he
  obtain ⟨num, t, narr, hshape, _, _, _⟩ := hbody b hb
  rw [procItem_eq, hshape]
  simp [List.takeWhile_cons]

/-- Witness for the amended C2 at the concrete one-block newline-free
input `Day 1: a. b`. -/
theorem process_response_wellformed_witness :
    (process_response ("Day 1: a. b".data)).length = 1 ∧
    (∃ bodies : List (List Char), bodies.length = 1 ∧
       (∀ b ∈ bodies, isDayBody b) ∧
       process_response ("Day 1: a. b".data) = bodies.map procItem) ∧
    ∀ e ∈ process_response ("Day 1: a. b".data), e.1 ≠ [] := by
  refine process_response_wellformed ("Day 1: a. b".data) 1
    ⟨[], [" 1: a. b".data], by decide, rfl, rfl, ?_⟩ (by decide)
  intro b hb
  rw [List.mem_singleton] at hb
  subst hb
  exact ⟨"1".data, "a".data, " b".data, by decide, by decide, by decide, by decide⟩

/-- The text reconstruction the C6 claim words describe literally:
each entry rendered as dayLabel ++ dot ++ description, concatenated. -/
def reconstructPlain (entries : List (List Char × List Char)) : List Char :=
  (entries.map (fun e => e.1 ++ '.' :: e.2)).flatten

/-- Reconstruction that re-inserts the `Day` delimiter the parser
stripped: each entry rendered as the delimiter followed by
dayLabel ++ dot ++ description, concatenated. -/
def reconstructDay (entries : List (List Char × List Char)) : List Char :=
  (entries.map (fun e => 'D' :: 'a' :: 'y' :: (e.1 ++ '.' :: e.2))).flatten

/-- Concrete one-day input used to exercise the round-trip. -/
def c6Input : List Char := "Day 1: a. b".data

/-- C6 counterexample: on a concrete input whose single day label
contains no dot, re-parsing the text reconstructed exactly as the claim
words it (joining each entry as dayLabel ++ dot ++ description, without
re-inserting the `Day` delimiter the parser stripped) does not recover
the same entries: the reconstructed text contains no `Day` at all, so
the re-parse is empty. -/
theorem roundtrip_plain_counterexample :
    (∀ e ∈ process_response c6Input, '.' ∉ e.1) ∧
    process_response (reconstructPlain (process_response c6Input)) ≠
      process_response c6Input := by
  decide

theorem takeWhile_dot_append (label desc : List Char) (h : '.' ∉ label) :
    (label ++ '.' :: desc).takeWhile (fun c => c != '.') = label ∧
    (label ++ '.' :: desc).dropWhile (fun c => c != '.') = '.' :: desc := by
  induction label with
  | nil => simp [List.takeWhile_cons, List.dropWhile_cons]
  | cons c l ih =>
      have hc : c ≠ '.' := fun he => h (by rw [he]; exact List.mem_cons_self _ _)
      have hmem : '.' ∉ l := fun hm => h (List.mem_cons_of_mem c hm)
      obtain ⟨ih1, ih2⟩ := ih hmem
      constructor
      · rw [List.cons_append, List.takeWhile_cons]
        simp only [bne_iff_ne, ne_eq, hc, not_false_eq_true, if_true, ih1]
      · rw [List.cons_append, List.dropWhile_cons]
        simp only [bne_iff_ne, ne_eq, hc, not_false_eq_true, if_true, ih2]

theorem procItem_fst_no_dot (seg : List Char) : '.' ∉ (procItem seg).1 := by
  rw [procItem_eq]
  intro hdot
  have := List.mem_takeWhile_imp hdot
  simp at this

theorem procItem_reassemble (seg : List Char) :
    procItem ((procItem seg).1 ++ '.' :: (procItem seg).2) = procItem seg := by
  obtain ⟨h1, h2⟩ := takeWhile_dot_append (procItem seg).1 (procItem seg).2
    (procItem_fst_no_dot seg)
  rw [procItem_eq, h1, h2, List.drop_succ_cons, List.drop_zero]

theorem containsDay_body (seg : List Char) (hseg : containsDay seg = false) :
    containsDay ((procItem seg).1 ++ '.' :: (procItem seg).2) = false := by
  have hsplit : seg.takeWhile (fun c => c != '.') ++ seg.dropWhile (fun c => c != '.') = seg :=
    List.takeWhile_append_dropWhile (fun c => c != '.') seg
  rw [procItem_eq]
  apply containsDay_append_dot
  · exact containsDay_append_left _ _ (by rw [hsplit]; exact hseg)
  · apply containsDay_append_right (List.take 1 (seg.dropWhile (fun c => c != '.')))
    rw [List.take_append_drop]
    exact containsDay_append_right _ _ (by rw [hsplit]; exact hseg)

theorem body_chars (seg : List Char) (x : Char)
    (hx : x ∈ (procItem seg).1 ++ '.' :: (procItem seg).2) : x ∈ seg ∨ x = '.' := by
  rw [procItem_eq] at hx
  rcases List.mem_append.mp hx with h | h
  · exact Or.inl (mem_takeWhile_mem _ seg x h)
  · rcases List.mem_cons.mp h with h | h
    · exact Or.inr h
    · exact Or.inl (mem_dropWhile_mem _ seg x (List.mem_of_mem_drop h))

/-- C6 amended: newline normalization is idempotent and is the identity
on newline-free text; and re-parsing the reconstructed text recovers the
same entries, provided the reconstruction re-inserts the `Day` delimiter
in front of each entry (join each entry as
Day ++ dayLabel ++ dot ++ description), which is the only rendering of
the claim the code can satisfy since the parser strips the delimiter. -/
theorem normalize_idem_and_roundtrip (s : List Char)
    (_h : ∀ e ∈ process_response s, '.' ∉ e.1) :
    removeNewlines (removeNewlines s) = removeNewlines s ∧
    ('\n' ∉ s → removeNewlines s = s) ∧
    process_response (reconstructDay (process_response s)) = process_response s := by
  refine ⟨removeNewlines_idem s, removeNewlines_noop s, ?_⟩
  have hrec : reconstructDay (process_response s) =
      (((daySegments s).map
          (fun seg => (procItem seg).1 ++ '.' :: (procItem seg).2)).map
        (fun b => 'D' :: 'a' :: 'y' :: b)).flatten := by
    rw [reconstructDay]
    show ((((daySegments s).map procItem).map
        (fun e => 'D' :: 'a' :: 'y' :: (e.1 ++ '.' :: e.2))).flatten = _)
    rw [List.map_map, List.map_map]
    rfl
  have hsegprop : ∀ seg ∈ daySegments s,
      containsDay seg = false ∧ ∀ x ∈ seg, x ∈ removeNewlines s := by
    intro seg hseg
    have hmem : seg ∈ splitOnDay (removeNewlines s) := List.mem_of_mem_drop hseg
    exact ⟨splitOnDay_pieces_noDay _ seg hmem, splitOnDay_pieces_subset _ seg hmem⟩
  have hbody : ∀ b ∈ (daySegments s).map
      (fun seg => (procItem seg).1 ++ '.' :: (procItem seg).2), containsDay b = false := by
    intro b hb
    obtain ⟨seg, hseg, rfl⟩ := List.mem_map.mp hb
    exact containsDay_body seg (hsegprop seg hseg).1
  have hnlb : '\n' ∉ reconstructDay (process_response s) := by
    rw [hrec]
    intro hmem
    rw [List.mem_flatten] at hmem
    obtain ⟨l, hl, hx⟩ := hmem
    rw [List.mem_map] at hl
    obtain ⟨b, hbmem, rfl⟩ := hl
    rw [List.mem_map] at hbmem
    obtain ⟨seg, hseg, rfl⟩ := hbmem
    rcases List.mem_cons.mp hx with h1 | hx
    · exact absurd h1 (by decide)
    rcases List.mem_cons.mp hx with h1 | hx
    · exact absurd h1 (by decide)
    rcases List.mem_cons.mp hx with h1 | hx
    · exact absurd h1 (by decide)
    rcases body_chars seg '\n' hx with h1 | h1
    · exact removeNewlines_no_newline s ((hsegprop seg hseg).2 '\n' h1)
    · exact absurd h1 (by decide)
  show ((splitOnDay (removeNewlines (reconstructDay (process_response s)))).drop 1).map
      procItem = process_response s
  rw [removeNewlines_noop _ hnlb, hrec]
  have hjoin := splitOnDay_join
    ((daySegments s).map (fun seg => (procItem seg).1 ++ '.' :: (procItem seg).2))
    [] rfl hbody
  rw [List.nil_append] at hjoin
  rw [hjoin, List.drop_succ_cons, List.drop_zero, List.map_map]
  show (daySegments s).map
      (fun seg => procItem ((procItem seg).1 ++ '.' :: (procItem seg).2)) = _
  refine List.map_congr_left ?_
  intro seg _
  exact procItem_reassemble seg

/-- Witness for the amended C6 at the concrete input `Day 1: a. b`. -/
theorem normalize_idem_and_roundtrip_witness :
    removeNewlines (removeNewlines c6Input) = removeNewlines c6Input ∧
    removeNewlines c6Input = c6Input ∧
    process_response (reconstructDay (process_response c6Input)) =
      process_response c6Input := by
  have hmain := normalize_idem_and_roundtrip c6Input (by decide)
  exact ⟨hmain.1, hmain.2.1 (by decide), hmain.2.2⟩

/-- One chat turn as stored by src/app.py line 103: a dictionary with a
user message and the bot reply. -/
structure ChatTurn where
  user : String
  bot : String

/-- Session chat state: `some history` models a session whose
`chat_history` key is present, `none` a session without it. -/
def ChatState : Type := Option (List ChatTurn)

/-- Embeds one POST to `/chat` (src/app.py lines 86-104): initialize
`chat_history` to the empty list when the key is absent, then append
exactly one turn holding the user message and the bot reply (the reply
string is whatever the completion client, or its error handler,
produced). -/
def chat_post (sess : ChatState) (userMessage botReply : String) : ChatState :=
  let history := sess.getD []
  some (history ++ [⟨userMessage, botReply⟩])

/-- Embeds `clear_chat` (src/app.py lines 109-117): pop the
`chat_history` key when present, leaving the session without it. -/
def clear_chat (sess : ChatState) : ChatState :=
  match sess with
  | some _ => none
  | none => none

/-- The chat history a render of the chat page observes: the stored
history when the key exists, and the empty list otherwise (the `/chat`
route initializes a missing key to `[]`, and `/clear` renders with
`chat_history=[]`). -/
def renderedHistory (sess : ChatState) : List ChatTurn :=
  sess.getD []

/-- The session state reached from a fresh session by a sequence of chat
POSTs, each carrying one (user message, bot reply) pair. -/
def runChatSession (turns : List (String × String)) : ChatState :=
  turns.foldl (fun sess t => chat_post sess t.1 t.2) none

theorem runChatSession_length (turns : List (String × String)) :
    ∀ sess : ChatState,
      (renderedHistory (turns.foldl (fun sess t => chat_post sess t.1 t.2) sess)).length =
        (renderedHistory sess).length + turns.length := by
  induction turns with
  | nil => intro sess; simp
  | cons t ts ih =>
      intro sess
      rw [List.foldl_cons, ih]
      show (renderedHistory (chat_post sess t.1 t.2)).length + ts.length = _
      simp [chat_post, renderedHistory]
      omega

/-- C8: after any sequence of chat POSTs from a fresh session (each of
which appends exactly one turn, so the history length equals the number
of POSTs), clearing the session leaves the observable chat history
empty, regardless of its prior length. -/
theorem clear_chat_empties (turns : List (String × String)) :
    (renderedHistory (runChatSession turns)).length = turns.length ∧
    (renderedHistory (clear_chat (runChatSession turns))).length = 0 := by
  constructor
  · have := runChatSession_length turns none
    simpa [runChatSession, renderedHistory] using this
  · cases hs : runChatSession turns with
    | none => rfl
    | some l => rfl

/-- Python whitespace as stripped by `str.strip()` and accepted around
numeric literals by `int()` and `float()`. -/
def pyIsSpace (c : Char) : Bool :=
  c == ' ' || c == '\t' || c == '\n' || c == '\r' || c == '\x0b' || c == '\x0c'

/-- Strips leading and trailing Python whitespace. -/
def pyStrip (s : List Char) : List Char :=
  ((s.dropWhile pyIsSpace).reverse.dropWhile pyIsSpace).reverse

/-- Drops one optional leading sign character. -/
def stripSign : List Char → List Char
  | '+' :: r => r
  | '-' :: r => r
  | r => r

/-- Non-empty string of ASCII digits. -/
def allDigits (l : List Char) : Bool :=
  !l.isEmpty && l.all (fun c => c.isDigit)

/-- Acceptance test of Python `int(s)` on a string: optional surrounding
whitespace, optional sign, then a non-empty run of digits.  (Underscore
digit grouping and non-ASCII digits are not modelled.) -/
def isIntLit (s : List Char) : Bool :=
  allDigits (stripSign (pyStrip s))

/-- Numeric value of a digit run. -/
def digitsToNat (l : List Char) : ℕ :=
  l.foldl (fun n c => 10 * n + (c.toNat - 48)) 0

/-- Integer value Python `int(s)` returns on an accepted literal. -/
def intLitVal (s : List Char) : ℤ :=
  match pyStrip s with
  | '-' :: r => -(digitsToNat r : ℤ)
  | '+' :: r => (digitsToNat r : ℤ)
  | r => (digitsToNat r : ℤ)

/-- Embeds Python `int(request.form.get(...))` (src/app.py line 127):
`form.get` yields `none` for a missing field, on which `int` raises a
TypeError; a present but non-coercible string raises a ValueError; both
are caught by the surrounding `except` and surfaced as the error text. -/
def pyInt (x : Option String) : Except String ℤ :=
  match x with
  | none => .error ("int() argument must be a string, a bytes-like object or a real number, not NoneType")
  | some s =>
      if isIntLit s.data then .ok (intLitVal s.data)
      else .error ("invalid literal for int() with base 10: " ++ s)

/-- Exponent part of a Python float literal: optional sign then a
non-empty digit run. -/
def expPartOk (l : List Char) : Bool :=
  allDigits (stripSign l)

/-- Mantissa-with-optional-exponent part of a Python float literal
(after sign removal): digits, optionally a dot and more digits (at least
one digit on some side of the dot), optionally an exponent. -/
def mantissaOk (l : List Char) : Bool :=
  match l.dropWhile (fun c => c.isDigit) with
  | [] => !(l.takeWhile (fun c => c.isDigit)).isEmpty
  | '.' :: r2 =>
      (!(l.takeWhile (fun c => c.isDigit)).isEmpty ||
       !(r2.takeWhile (fun c => c.isDigit)).isEmpty) &&
      (match r2.dropWhile (fun c => c.isDigit) with
       | [] => true
       | 'e' :: e => expPartOk e
       | 'E' :: e => expPartOk e
       | _ => false)
  | 'e' :: e => !(l.takeWhile (fun c => c.isDigit)).isEmpty && expPartOk e
  | 'E' :: e => !(l.takeWhile (fun c => c.isDigit)).isEmpty && expPartOk e
  | _ => false

/-- Lower-cases every character. -/
def lowerAll (l : List Char) : List Char := l.map Char.toLower

/-- Acceptance test of Python `float(s)` on a string: optional
surrounding whitespace, optional sign, then either a decimal literal
with optional exponent or one of the special words inf, infinity, nan
(case-insensitive).  (Underscore digit grouping is not modelled.) -/
def isFloatLit (s : List Char) : Bool :=
  mantissaOk (stripSign (pyStrip s)) ||
  lowerAll (stripSign (pyStrip s)) == "inf".data ||
  lowerAll (stripSign (pyStrip s)) == "infinity".data ||
  lowerAll (stripSign (pyStrip s)) == "nan".data

/-- Embeds Python `float(request.form.get(...))` (src/app.py lines
129-136).  Floating-point values themselves are not modelled: an
accepted coercion is represented by the accepted literal text, which is
all the verified claims depend on. -/
def pyFloat (x : Option String) : Except String String :=
  match x with
  | none => .error ("float() argument must be a string or a real number, not NoneType")
  | some s =>
      if isFloatLit s.data then .ok s
      else .error ("could not convert string to float: " ++ s)

/-- The raw budget form: the eleven text fields `/predict_budget` reads
via `request.form.get` (src/app.py lines 126-136); a missing field is
`none`. -/
structure BudgetForm where
  destination : Option String
  trip_duration : Option String
  accommodation_type : Option String
  accommodation_cost : Option String
  activity_preference : Option String
  activity_cost : Option String
  dining_preference : Option String
  dining_cost : Option String
  transportation_cost : Option String
  flight_cost : Option String
  seasonality_factor : Option String

/-- The single-row feature table passed to the model (src/app.py lines
139-151): exactly eleven named fields, in the order of the DataFrame
columns Destination, Trip Duration (Days), Accommodation Type,
Accommodation Cost (per day), Activity Preference, Activity Cost (per
day), Dining Preference, Dining Cost (per day), Transportation Cost,
Flight Cost, Seasonality Factor. -/
structure InputData where
  Destination : Option String
  Trip_Duration_Days : ℤ
  Accommodation_Type : Option String
  Accommodation_Cost_per_day : String
  Activity_Preference : Option String
  Activity_Cost_per_day : String
  Dining_Preference : Option String
  Dining_Cost_per_day : String
  Transportation_Cost : String
  Flight_Cost : String
  Seasonality_Factor : String

/-- Outcome of a POST to `/predict_budget`: either the rendered budget
page carrying the predicted scalar and the echoed feature row, or the
caught exception text returned to the caller (src/app.py lines 156-172). -/
inductive PredictResult where
  | page (budget : ℤ) (data : InputData)
  | errorPage (msg : String)

/-- The coercion sequence of src/app.py lines 127-151 inside the `try`
block, in source order: the first failing coercion raises, aborting the
whole operation before the DataFrame row is built. -/
def coerceForm (f : BudgetForm) : Except String InputData := do
  let trip_duration ← pyInt f.trip_duration
  let accommodation_cost ← pyFloat f.accommodation_cost
  let activity_cost ← pyFloat f.activity_cost
  let dining_cost ← pyFloat f.dining_cost
  let transportation_cost ← pyFloat f.transportation_cost
  let flight_cost ← pyFloat f.flight_cost
  let seasonality_factor ← pyFloat f.seasonality_factor
  pure { Destination := f.destination
         Trip_Duration_Days := trip_duration
         Accommodation_Type := f.accommodation_type
         Accommodation_Cost_per_day := accommodation_cost
         Activity_Preference := f.activity_preference
         Activity_Cost_per_day := activity_cost
         Dining_Preference := f.dining_preference
         Dining_Cost_per_day := dining_cost
         Transportation_Cost := transportation_cost
         Flight_Cost := flight_cost
         Seasonality_Factor := seasonality_factor }

/-- Embeds the POST branch of `predict_budget` (src/app.py lines
121-172), parameterized by the loaded model: on success the page is
rendered with `model` applied to the single feature row; any coercion
failure is caught and its message returned. -/
def predict_budget (model : InputData → ℤ) (f : BudgetForm) : PredictResult :=
  match coerceForm f with
  | .ok d => .page (model d) d
  | .error e => .errorPage e

/-- Success test for an `Except`. -/
def isOkB {α : Type} : Except String α → Bool
  | .ok _ => true
  | .error _ => false

/-- All seven numeric form fields are present and coercible to their
numeric type. -/
def allCoercible (f : BudgetForm) : Bool :=
  isOkB (pyInt f.trip_duration) &&
  isOkB (pyFloat f.accommodation_cost) &&
  isOkB (pyFloat f.activity_cost) &&
  isOkB (pyFloat f.dining_cost) &&
  isOkB (pyFloat f.transportation_cost) &&
  isOkB (pyFloat f.flight_cost) &&
  isOkB (pyFloat f.seasonality_factor)

/-- C7: if any numeric budget-form field is missing or non-coercible,
`predict_budget` returns a single error message, builds no feature row
and never consults the model (the outcome is one fixed error page for
every possible model); if all numeric fields are coercible, it builds
the row with exactly the eleven documented named fields in documented
order and invokes the model's predict on that row. -/
theorem predict_budget_contract (f : BudgetForm) :
    (allCoercible f = false →
      ∃ msg, ∀ model : InputData → ℤ, predict_budget model f = .errorPage msg) ∧
    (allCoercible f = true →
      ∃ d : InputData,
        (∀ model : InputData → ℤ, predict_budget model f = .page (model d) d) ∧
        pyInt f.trip_duration = .ok d.Trip_Duration_Days ∧
        d.Destination = f.destination ∧
        d.Accommodation_Type = f.accommodation_type ∧
        pyFloat f.accommodation_cost = .ok d.Accommodation_Cost_per_day ∧
        d.Activity_Preference = f.activity_preference ∧
        pyFloat f.activity_cost = .ok d.Activity_Cost_per_day ∧
        d.Dining_Preference = f.dining_preference ∧
        pyFloat f.dining_cost = .ok d.Dining_Cost_per_day ∧
        pyFloat f.transportation_cost = .ok d.Transportation_Cost ∧
        pyFloat f.flight_cost = .ok d.Flight_Cost ∧
        pyFloat f.seasonality_factor = .ok d.Seasonality_Factor) := by
  cases h1 : pyInt f.trip_duration with
  | error e =>
      refine ⟨fun _ => ⟨e, fun model => ?_⟩, fun hall => ?_⟩
      · simp only [predict_budget, coerceForm, h1]; rfl
      · simp [allCoercible, isOkB, h1] at hall
  | ok v1 =>
  cases h2 : pyFloat f.accommodation_cost with
  | error e =>
      refine ⟨fun _ => ⟨e, fun model => ?_⟩, fun hall => ?_⟩
      · simp only [predict_budget, coerceForm, h1, h2]; rfl
      · simp [allCoercible, isOkB, h1, h2] at hall
  | ok v2 =>
  cases h3 : pyFloat f.activity_cost with
  | error e =>
      refine ⟨fun _ => ⟨e, fun model => ?_⟩, fun hall => ?_⟩
      · simp only [predict_budget, coerceForm, h1, h2, h3]; rfl
      · simp [allCoercible, isOkB, h1, h2, h3] at hall
  | ok v3 =>
  cases h4 : pyFloat f.dining_cost with
  | error e =>
      refine ⟨fun _ => ⟨e, fun model => ?_⟩, fun hall => ?_⟩
      · simp only [predict_budget, coerceForm, h1, h2, h3, h4]; rfl
      · simp [allCoercible, isOkB, h1, h2, h3, h4] at hall
  | ok v4 =>
  cases h5 : pyFloat f.transportation_cost with
  | error e =>
      refine ⟨fun _ => ⟨e, fun model => ?_⟩, fun hall => ?_⟩
      · simp only [predict_budget, coerceForm, h1, h2, h3, h4, h5]; rfl
      · simp [allCoercible, isOkB, h1, h2, h3, h4, h5] at hall
  | ok v5 =>
  cases h6 : pyFloat f.flight_cost with
  | error e =>
      refine ⟨fun _ => ⟨e, fun model => ?_⟩, fun hall => ?_⟩
      · simp only [predict_budget, coerceForm, h1, h2, h3, h4, h5, h6]; rfl
      · simp [allCoercible, isOkB, h1, h2, h3, h4, h5, h6] at hall
  | ok v6 =>
  cases h7 : pyFloat f.seasonality_factor with
  | error e =>
      refine ⟨fun _ => ⟨e, fun model => ?_⟩, fun hall => ?_⟩
      · simp only [predict_budget, coerceForm, h1, h2, h3, h4, h5, h6, h7]; rfl
      · simp [allCoercible, isOkB, h1, h2, h3, h4, h5, h6, h7] at hall
  | ok v7 =>
      refine ⟨fun hfail => ?_, fun _ => ?_⟩
      · simp [allCoercible, isOkB, h1, h2, h3, h4, h5, h6, h7] at hfail
      · refine ⟨{ Destination := f.destination
                  Trip_Duration_Days := v1
                  Accommodation_Type := f.accommodation_type
                  Accommodation_Cost_per_day := v2
                  Activity_Preference := f.activity_preference
                  Activity_Cost_per_day := v3
                  Dining_Preference := f.dining_preference
                  Dining_Cost_per_day := v4
                  Transportation_Cost := v5
                  Flight_Cost := v6
                  Seasonality_Factor := v7 },
                fun model => ?_, rfl, rfl, rfl, rfl, rfl, rfl, rfl, rfl, rfl, rfl, rfl⟩
        simp only [predict_budget, coerceForm, h1, h2, h3, h4, h5, h6, h7]; rfl

/-- A budget form with the spec example failure: a non-numeric trip
duration. -/
def badForm : BudgetForm :=
  ⟨some ("Paris"), some ("abc"), some ("Hotel"), some ("120.5"),
   some ("Hiking"), some ("30"), some ("Casual"), some ("25.0"),
   some ("100"), some ("450.75"), some ("1.2")⟩

/-- A budget form on which every numeric field coerces. -/
def goodForm : BudgetForm :=
  ⟨some ("Paris"), some ("7"), some ("Hotel"), some ("120.5"),
   some ("Hiking"), some ("30"), some ("Casual"), some ("25.0"),
   some ("100"), some ("450.75"), some ("1.2")⟩

/-- Witness for C7: the failing branch at the spec example form (trip
duration abc) and the succeeding branch at a fully coercible form. -/
theorem predict_budget_contract_witness :
    (∃ msg, ∀ model : InputData → ℤ, predict_budget model badForm = .errorPage msg) ∧
    (∃ d : InputData,
        (∀ model : InputData → ℤ, predict_budget model goodForm = .page (model d) d) ∧
        pyInt goodForm.trip_duration = .ok d.Trip_Duration_Days ∧
        d.Destination = goodForm.destination ∧
        d.Accommodation_Type = goodForm.accommodation_type ∧
        pyFloat goodForm.accommodation_cost = .ok d.Accommodation_Cost_per_day ∧
        d.Activity_Preference = goodForm.activity_preference ∧
        pyFloat goodForm.activity_cost = .ok d.Activity_Cost_per_day ∧
        d.Dining_Preference = goodForm.dining_preference ∧
        pyFloat goodForm.dining_cost = .ok d.Dining_Cost_per_day ∧
        pyFloat goodForm.transportation_cost = .ok d.Transportation_Cost ∧
        pyFloat goodForm.flight_cost = .ok d.Flight_Cost ∧
        pyFloat goodForm.seasonality_factor = .ok d.Seasonality_Factor) :=
  ⟨(predict_budget_contract badForm).1 (by decide),
   (predict_budget_contract goodForm).2 (by decide)⟩

end Capstone
